import Mathlib

/-!
Verification of the loan-amortization core of `src/loan.py`.

The Python code computes with IEEE floats; we embed its arithmetic exactly:
the closed-form solvers and the schedule loop over `ℚ` (every operation used
there — `+`, `-`, `*`, `/`, `**` with an integer exponent, `max`, `round`) is
exact rational arithmetic, and the logarithm-based tenure solver and the
brentq-based rate solver over `ℝ` with `Real.log`.  Python's `round(x, 2)`
(round to nearest cent) is modelled by Mathlib's round-to-nearest `round`;
the two differ only on exact half-cent ties, and no claim proved below is
sensitive to the tie-breaking direction.  Python exceptions are modelled by
`Except`: an uncaught `ZeroDivisionError` and a raised `ValueError msg` are
distinct outcomes of type `PyError`.
-/

/-- Python `round(x, 2)` over `ℚ`: round to the nearest hundredth. -/
def round2 (q : ℚ) : ℚ := (round (100 * q) : ℚ) / 100

/-- Embedding of `calculate_emi(P, R, N)` (src/loan.py lines 7-12).
`r = R / 12 / 100`; if `r == 0` return `P / N`, else
`P * r * (1 + r) ** N / ((1 + r) ** N - 1)`. -/
def calculate_emi (P R : ℚ) (N : ℕ) : ℚ :=
  let r := R / 12 / 100
  if r = 0 then P / N
  else P * r * (1 + r) ^ N / ((1 + r) ^ N - 1)

/-- Embedding of `calculate_principal(E, R, N)` (src/loan.py lines 14-19). -/
def calculate_principal (E R : ℚ) (N : ℕ) : ℚ :=
  let r := R / 12 / 100
  if r = 0 then E * N
  else E * ((1 + r) ^ N - 1) / (r * (1 + r) ^ N)

/-- One row of the amortization schedule, mirroring the dict emitted by
`generate_schedule` (src/loan.py lines 58-64): keys Month, EMI, Principal,
Interest, Balance. -/
structure ScheduleRow where
  month : ℕ
  emi : ℚ
  principal : ℚ
  interest : ℚ
  balance : ℚ
deriving DecidableEq

/-- One iteration of the balance update in the schedule loop
(src/loan.py lines 54-57): `balance -= emi - balance * r` then
`balance = max(balance, 0)`. -/
def stepBal (r emi b : ℚ) : ℚ := max (b - (emi - b * r)) 0

/-- The loop of `generate_schedule` (src/loan.py lines 53-64): `k` iterations
remain, the next period index is `i`, the carried (unrounded) balance is `b`.
Each iteration computes `interest = b * r`, `pc = emi - interest`, clamps the
new balance with `max(..., 0)`, and emits a row whose four currency fields are
rounded to 2 decimals while the carried balance stays unrounded. -/
def scheduleAux (r emi : ℚ) : ℕ → ℕ → ℚ → List ScheduleRow
  | 0, _, _ => []
  | k + 1, i, b =>
    let interest := b * r
    let pc := emi - interest
    let b2 := max (b - pc) 0
    ⟨i, round2 emi, round2 pc, round2 interest, round2 b2⟩ ::
      scheduleAux r emi k (i + 1) b2

/-- Embedding of `generate_schedule(P, R, N)` (src/loan.py lines 46-65).
Python's `N = int(N)` truncates toward zero; for the `N ≥ 1` inputs the
claims range over this is `⌊N⌋`, embedded as `(⌊N⌋).toNat`. -/
def generate_schedule (P R N : ℚ) : List ScheduleRow :=
  let n : ℕ := (⌊N⌋).toNat
  let r := R / 12 / 100
  let emi := calculate_emi P R n
  scheduleAux r emi n 1 P

section RealSide

open scoped Classical

/-- Python exception outcomes of the tenure and rate solvers: a raised
`ValueError msg`, or an uncaught `ZeroDivisionError`. -/
inductive PyError where
  | zeroDivisionError : PyError
  | valueError : String → PyError
deriving DecidableEq

/-- Embedding of `calculate_tenure(P, R, E)` (src/loan.py lines 21-29) over
`ℝ`.  The `r == 0` branch returns `P / E`, which in Python raises an uncaught
`ZeroDivisionError` when `E == 0`.  In the positive-rate branch the `try`
block evaluates `math.log(E / (E - P*r)) / math.log(1 + r)`: a zero divisor
`E - P*r` raises `ZeroDivisionError`, a non-positive logarithm argument raises
`ValueError`, and a zero divisor `math.log(1 + r)` raises `ZeroDivisionError`;
all three are caught and re-raised as
`ValueError "Unable to calculate tenure. Check your values."`. -/
noncomputable def calculate_tenure (P R E : ℝ) : Except PyError ℝ :=
  let r := R / 12 / 100
  if r = 0 then
    if E = 0 then Except.error PyError.zeroDivisionError
    else Except.ok (P / E)
  else
    if E - P * r = 0 ∨ E / (E - P * r) ≤ 0 ∨ 1 + r ≤ 0 ∨ Real.log (1 + r) = 0
    then Except.error (PyError.valueError "Unable to calculate tenure. Check your values.")
    else Except.ok (Real.log (E / (E - P * r)) / Real.log (1 + r))

/-- The closure `func(r)` inside `calculate_rate` (src/loan.py lines 32-34):
the annual-percent rate `r` is converted to a monthly fraction and the raw EMI
formula minus the target payment `E` is returned. -/
noncomputable def rate_func (P : ℝ) (N : ℕ) (E r : ℝ) : ℝ :=
  P * (r / 12 / 100) * (1 + r / 12 / 100) ^ N / ((1 + r / 12 / 100) ^ N - 1) - E

/-- Modelled from the spec: `scipy.optimize.brentq`, the external bracketed
root-finder called by `calculate_rate`, is not part of this repository.  The
spec (sections 4.1 and 9) describes it as a standard bracketing method that
finds a zero of the function on `[a, b]` when one is bracketed and otherwise
raises `ValueError` ("f(a) and f(b) must have different signs"), surfaced by
the caller.  We model it as the ideal such routine: it returns a root of `f`
in `[a, b]` exactly when one exists, and fails otherwise.  For the continuous
strictly monotone `rate_func` it is applied to, root existence coincides with
brentq's endpoint sign test, which is proved where this model is used. -/
noncomputable def brentq (f : ℝ → ℝ) (a b : ℝ) : Except String ℝ :=
  if h : ∃ x, a ≤ x ∧ x ≤ b ∧ f x = 0 then Except.ok (Classical.choose h)
  else Except.error "f(a) and f(b) must have different signs"

/-- Embedding of `calculate_rate(P, N, E)` (src/loan.py lines 31-44):
reject `E < P / N` up front, otherwise run brentq on `[0.01, 50]` and
re-raise its failure with the code's message. -/
noncomputable def calculate_rate (P : ℝ) (N : ℕ) (E : ℝ) : Except PyError ℝ :=
  if E < P / N then
    Except.error (PyError.valueError "EMI is too low to cover the loan.")
  else
    match brentq (rate_func P N E) 0.01 50 with
    | Except.ok R => Except.ok R
    | Except.error _ =>
        Except.error (PyError.valueError "Could not determine interest rate with given values.")

/-- Mirror of `calculate_emi` over `ℝ`, used to state what the rate returned
by `calculate_rate` solves. -/
noncomputable def calculate_emi_real (P R : ℝ) (N : ℕ) : ℝ :=
  let r := R / 12 / 100
  if r = 0 then P / N
  else P * r * (1 + r) ^ N / ((1 + r) ^ N - 1)

end RealSide

/-! ### Geometric-sum form of the payment formula -/

section FormulaLemmas

variable {K : Type*} [LinearOrderedField K]

theorem geomSum_pos {x : K} (hx : 0 < x) {N : ℕ} (hN : 1 ≤ N) :
    0 < ∑ k ∈ Finset.range N, x ^ k :=
  Finset.sum_pos (fun k _ => pow_pos hx k) (Finset.nonempty_range_iff.mpr (by omega))

theorem rate_mul_geomSum (r : K) (N : ℕ) :
    r * ∑ k ∈ Finset.range N, (1 + r) ^ k = (1 + r) ^ N - 1 := by
  have h := geom_sum_mul (1 + r) N
  rw [add_sub_cancel_left] at h
  rw [mul_comm]
  exact h

theorem formula_eq_div_geomSum (P : K) {r : K} {N : ℕ} (hr : 0 < r) (hN : 1 ≤ N) :
    P * r * (1 + r) ^ N / ((1 + r) ^ N - 1) =
      P * (1 + r) ^ N / ∑ k ∈ Finset.range N, (1 + r) ^ k := by
  have hx : (0 : K) < 1 + r := by linarith
  have hS := geomSum_pos hx hN
  rw [← rate_mul_geomSum r N, div_eq_div_iff (mul_pos hr hS).ne' hS.ne']
  ring

theorem div_geomSum_strictMono {P : K} {N : ℕ} (hP : 0 < P) (hN : 1 ≤ N)
    {r1 r2 : K} (h1 : 0 ≤ r1) (h12 : r1 < r2) :
    P * (1 + r1) ^ N / (∑ k ∈ Finset.range N, (1 + r1) ^ k) <
      P * (1 + r2) ^ N / (∑ k ∈ Finset.range N, (1 + r2) ^ k) := by
  have hx1 : (0 : K) < 1 + r1 := by linarith
  have hx2 : (0 : K) < 1 + r2 := by linarith
  have hS1 := geomSum_pos hx1 hN
  have hS2 := geomSum_pos hx2 hN
  rw [div_lt_div_iff hS1 hS2, Finset.mul_sum, Finset.mul_sum]
  apply Finset.sum_lt_sum_of_nonempty (Finset.nonempty_range_iff.mpr (by omega))
  intro k hk
  have hkN : k < N := Finset.mem_range.mp hk
  have e1 : (1 + r1) ^ N = (1 + r1) ^ k * (1 + r1) ^ (N - k) := by
    rw [← pow_add]
    congr 1
    omega
  have e2 : (1 + r2) ^ N = (1 + r2) ^ k * (1 + r2) ^ (N - k) := by
    rw [← pow_add]
    congr 1
    omega
  have hpow : (1 + r1) ^ (N - k) < (1 + r2) ^ (N - k) :=
    pow_lt_pow_left₀ (by linarith) hx1.le (by omega)
  have hc : 0 < P * ((1 + r1) ^ k * (1 + r2) ^ k) := by positivity
  calc P * (1 + r1) ^ N * (1 + r2) ^ k
      = P * ((1 + r1) ^ k * (1 + r2) ^ k) * (1 + r1) ^ (N - k) := by rw [e1]; ring
    _ < P * ((1 + r1) ^ k * (1 + r2) ^ k) * (1 + r2) ^ (N - k) :=
        mul_lt_mul_of_pos_left hpow hc
    _ = P * (1 + r2) ^ N * (1 + r1) ^ k := by rw [e2]; ring

end FormulaLemmas

theorem calculate_emi_zero_rate_eq (P : ℚ) (N : ℕ) : calculate_emi P 0 N = P / N := by
  simp [calculate_emi]

theorem calculate_emi_eq_div_geomSum (P R : ℚ) (N : ℕ) (hR : 0 ≤ R) (hN : 1 ≤ N) :
    calculate_emi P R N =
      P * (1 + R / 12 / 100) ^ N / ∑ k ∈ Finset.range N, (1 + R / 12 / 100) ^ k := by
  simp only [calculate_emi]
  by_cases h : R / 12 / 100 = 0
  · rw [if_pos h, h]
    simp
  · have hr0 : 0 ≤ R / 12 / 100 := by positivity
    have hrpos : 0 < R / 12 / 100 := lt_of_le_of_ne hr0 (Ne.symm h)
    rw [if_neg h]
    exact formula_eq_div_geomSum P hrpos hN

/-! ### Rounding lemmas -/

theorem round2_zero : round2 0 = 0 := by
  simp [round2]

theorem round2_le_round2 {x y : ℚ} (h : x ≤ y) : round2 x ≤ round2 y := by
  unfold round2
  have h2 : round (100 * x) ≤ round (100 * y) := by
    rw [round_eq, round_eq]
    exact Int.floor_le_floor (by linarith)
  exact (div_le_div_right (by norm_num)).mpr (by exact_mod_cast h2)

theorem round2_nonneg {x : ℚ} (h : 0 ≤ x) : 0 ≤ round2 x := by
  have h2 := round2_le_round2 h
  rwa [round2_zero] at h2

theorem abs_round2_add (x y : ℚ) :
    |round2 x + round2 y - round2 (x + y)| ≤ 1 / 100 := by
  have ha : |100 * x - (round (100 * x) : ℚ)| ≤ 1 / 2 := abs_sub_round _
  have hb : |100 * y - (round (100 * y) : ℚ)| ≤ 1 / 2 := abs_sub_round _
  have hc : |100 * (x + y) - (round (100 * (x + y)) : ℚ)| ≤ 1 / 2 := abs_sub_round _
  set a := round (100 * x) with hadef
  set b := round (100 * y) with hbdef
  set c := round (100 * (x + y)) with hcdef
  have habs : |((a + b - c : ℤ) : ℚ)| ≤ 3 / 2 := by
    have hsplit : ((a + b - c : ℤ) : ℚ) =
        -(100 * x - (a : ℚ)) + -(100 * y - (b : ℚ)) + (100 * (x + y) - (c : ℚ)) := by
      push_cast
      ring
    rw [hsplit]
    have t1 := abs_add (-(100 * x - (a : ℚ)) + -(100 * y - (b : ℚ))) (100 * (x + y) - (c : ℚ))
    have t2 := abs_add (-(100 * x - (a : ℚ))) (-(100 * y - (b : ℚ)))
    rw [abs_neg] at t2
    rw [abs_neg (100 * y - (b : ℚ))] at t2
    linarith
  have hz : |a + b - c| ≤ 1 := by
    have hlt : |a + b - c| < 2 := by
      have hcast : |((a + b - c : ℤ) : ℚ)| < 2 := by linarith
      exact_mod_cast hcast
    omega
  have heq : round2 x + round2 y - round2 (x + y) = ((a + b - c : ℤ) : ℚ) / 100 := by
    unfold round2
    rw [← hadef, ← hbdef, ← hcdef]
    push_cast
    ring
  rw [heq, abs_div, abs_of_pos (by norm_num : (0 : ℚ) < (100 : ℚ))]
  have hfin : |((a + b - c : ℤ) : ℚ)| ≤ 1 := by exact_mod_cast hz
  linarith

/-! ### Structure of the schedule loop -/

theorem scheduleAux_length (r emi : ℚ) :
    ∀ (k i : ℕ) (b : ℚ), (scheduleAux r emi k i b).length = k := by
  intro k
  induction k with
  | zero => intro i b; simp [scheduleAux]
  | succ k ih => intro i b; simp [scheduleAux, ih]

theorem scheduleAux_map_month (r emi : ℚ) :
    ∀ (k i : ℕ) (b : ℚ),
      (scheduleAux r emi k i b).map ScheduleRow.month = List.range' i k := by
  intro k
  induction k with
  | zero => intro i b; simp [scheduleAux]
  | succ k ih => intro i b; simp [scheduleAux, List.range'_succ, ih]

theorem scheduleAux_row_form (r emi : ℚ) :
    ∀ (k i : ℕ) (b : ℚ), ∀ row ∈ scheduleAux r emi k i b,
      ∃ t : ℚ, row.emi = round2 emi ∧ row.interest = round2 t ∧
        row.principal = round2 (emi - t) := by
  intro k
  induction k with
  | zero => intro i b row hrow; simp [scheduleAux] at hrow
  | succ k ih =>
    intro i b row hrow
    simp only [scheduleAux, List.mem_cons] at hrow
    rcases hrow with h | h
    · exact ⟨b * r, by rw [h], by rw [h], by rw [h]⟩
    · exact ih (i + 1) _ row h

theorem scheduleAux_balance_chain (r emi : ℚ) (hr : 0 ≤ r) :
    ∀ (k i : ℕ) (b : ℚ), 0 ≤ b → b * r ≤ emi →
      List.Chain (fun x z => z ≤ x) (round2 b)
          ((scheduleAux r emi k i b).map ScheduleRow.balance) ∧
        ∀ row ∈ scheduleAux r emi k i b, 0 ≤ row.balance := by
  intro k
  induction k with
  | zero =>
    intro i b _ _
    constructor
    · simp [scheduleAux]
    · intro row hrow
      simp [scheduleAux] at hrow
  | succ k ih =>
    intro i b hb hbe
    have hb2eq : max (b - (emi - b * r)) 0 = stepBal r emi b := rfl
    set b2 := max (b - (emi - b * r)) 0 with hb2def
    have hb2nonneg : 0 ≤ b2 := le_max_right _ _
    have hb2le : b2 ≤ b := by
      apply max_le
      · linarith
      · exact hb
    have hb2e : b2 * r ≤ emi :=
      le_trans (mul_le_mul_of_nonneg_right hb2le hr) hbe
    obtain ⟨hchain, hpos⟩ := ih (i + 1) b2 hb2nonneg hb2e
    constructor
    · simp only [scheduleAux, List.map_cons]
      exact List.Chain.cons (round2_le_round2 hb2le) hchain
    · intro row hrow
      simp only [scheduleAux, List.mem_cons] at hrow
      rcases hrow with h | h
      · rw [h]
        exact round2_nonneg hb2nonneg
      · exact hpos row h

theorem chain_to_chain2 {α : Type*} {Rel : α → α → Prop} {a : α} {l : List α}
    (h : List.Chain Rel a l) : List.Chain' Rel l := by
  cases l with
  | nil => exact List.chain'_nil
  | cons x t => exact (List.chain_cons.mp h).2

theorem scheduleAux_getLast (r emi : ℚ) :
    ∀ (k i : ℕ) (b : ℚ), ∃ row : ScheduleRow,
      (scheduleAux r emi (k + 1) i b).getLast? = some row ∧
        row.balance = round2 ((stepBal r emi)^[k + 1] b) := by
  intro k
  induction k with
  | zero =>
    intro i b
    refine ⟨⟨i, round2 emi, round2 (emi - b * r), round2 (b * r),
      round2 (max (b - (emi - b * r)) 0)⟩, ?_, ?_⟩
    · simp [scheduleAux]
    · simp [stepBal]
  | succ k ih =>
    intro i b
    obtain ⟨row, hlast, hbal⟩ := ih (i + 1) (stepBal r emi b)
    refine ⟨row, ?_, ?_⟩
    · have hunfold : scheduleAux r emi (k + 2) i b =
          ⟨i, round2 emi, round2 (emi - b * r), round2 (b * r),
            round2 (max (b - (emi - b * r)) 0)⟩ ::
            scheduleAux r emi (k + 1) (i + 1) (max (b - (emi - b * r)) 0) := rfl
      rw [hunfold]
      have hstep : max (b - (emi - b * r)) 0 = stepBal r emi b := rfl
      rw [hstep]
      have hcons : ∃ y t, scheduleAux r emi (k + 1) (i + 1) (stepBal r emi b) = y :: t :=
        ⟨_, _, rfl⟩
      obtain ⟨y, t, hyt⟩ := hcons
      rw [hyt]
      rw [hyt] at hlast
      rw [List.getLast?_cons_cons]
      exact hlast
    · rw [hbal, ← Function.iterate_succ_apply]

/-! ### The EMI dominates the per-period interest, and the exact final balance -/

theorem emi_ge_interest (P R : ℚ) (N : ℕ) (hP : 0 < P) (hR : 0 ≤ R) (hN : 1 ≤ N) :
    P * (R / 12 / 100) ≤ calculate_emi P R N := by
  simp only [calculate_emi]
  by_cases h : R / 12 / 100 = 0
  · rw [if_pos h, h, mul_zero]
    positivity
  · have hr0 : 0 ≤ R / 12 / 100 := by positivity
    have hr : 0 < R / 12 / 100 := lt_of_le_of_ne hr0 (Ne.symm h)
    rw [if_neg h]
    have hx : 1 < 1 + R / 12 / 100 := by linarith
    have hxN : 1 < (1 + R / 12 / 100) ^ N := one_lt_pow₀ hx (by omega)
    have hden : 0 < (1 + R / 12 / 100) ^ N - 1 := by linarith
    rw [le_div_iff hden]
    have hPr : 0 < P * (R / 12 / 100) := mul_pos hP hr
    nlinarith

theorem stepBal_iterate_zero (P R : ℚ) (N : ℕ) (hP : 0 < P) (hR : 0 ≤ R) (hN : 1 ≤ N) :
    (stepBal (R / 12 / 100) (calculate_emi P R N))^[N] P = 0 := by
  have hNne : (N : ℚ) ≠ 0 := Nat.cast_ne_zero.mpr (by omega)
  by_cases h : R / 12 / 100 = 0
  · have hemi : calculate_emi P R N = P / N := by
      simp only [calculate_emi]
      rw [if_pos h]
    have key : ∀ k, k ≤ N → (stepBal (R / 12 / 100) (calculate_emi P R N))^[k] P
        = P - k * (P / N) := by
      intro k
      induction k with
      | zero => intro _; simp
      | succ k ih =>
        intro hk
        rw [Function.iterate_succ_apply', ih (by omega), stepBal, hemi, h]
        have hle : ((k : ℚ) + 1) * (P / N) ≤ (N : ℚ) * (P / N) := by
          apply mul_le_mul_of_nonneg_right _ (by positivity)
          exact_mod_cast Nat.cast_le.mpr hk
        rw [mul_div_cancel₀ P hNne] at hle
        rw [max_eq_left (by linarith)]
        push_cast
        ring
    have hfin := key N le_rfl
    rw [mul_div_cancel₀ P hNne] at hfin
    rw [hfin]
    ring
  · have hr0 : 0 ≤ R / 12 / 100 := by positivity
    have hr : 0 < R / 12 / 100 := lt_of_le_of_ne hr0 (Ne.symm h)
    set r := R / 12 / 100 with hrdef
    have hx : 1 < 1 + r := by linarith
    have hxN : 1 < (1 + r) ^ N := one_lt_pow₀ hx (by omega)
    have hden : 0 < (1 + r) ^ N - 1 := by linarith
    have hemi : calculate_emi P R N = P * r * (1 + r) ^ N / ((1 + r) ^ N - 1) := by
      simp only [calculate_emi]
      rw [← hrdef, if_neg h]
    have hustep : ∀ k : ℕ, stepBal r (calculate_emi P R N)
        (P * ((1 + r) ^ N - (1 + r) ^ k) / ((1 + r) ^ N - 1))
        = max (P * ((1 + r) ^ N - (1 + r) ^ (k + 1)) / ((1 + r) ^ N - 1)) 0 := by
      intro k
      rw [stepBal, hemi]
      congr 1
      field_simp
      ring
    have hupos : ∀ k, k ≤ N → 0 ≤ P * ((1 + r) ^ N - (1 + r) ^ k) / ((1 + r) ^ N - 1) := by
      intro k hk
      have hpow : (1 + r) ^ k ≤ (1 + r) ^ N := pow_le_pow_right₀ hx.le hk
      apply div_nonneg (mul_nonneg hP.le (by linarith)) hden.le
    have key : ∀ k, k ≤ N → (stepBal r (calculate_emi P R N))^[k] P
        = P * ((1 + r) ^ N - (1 + r) ^ k) / ((1 + r) ^ N - 1) := by
      intro k
      induction k with
      | zero =>
        intro _
        rw [Function.iterate_zero_apply, pow_zero]
        field_simp
      | succ k ih =>
        intro hk
        rw [Function.iterate_succ_apply', ih (by omega), hustep k,
          max_eq_left (hupos (k + 1) hk)]
    have hfin := key N le_rfl
    rw [sub_self, mul_zero, zero_div] at hfin
    exact hfin

/-! ### Properties of the rate-solver objective on the bracketing domain -/

theorem monthly_rate_pos {r : ℝ} (h : (0.01 : ℝ) ≤ r) : 0 < r / 12 / 100 := by
  linarith

theorem rate_func_continuousOn (P : ℝ) (N : ℕ) (E : ℝ) (hN : 1 ≤ N) :
    ContinuousOn (rate_func P N E) (Set.Icc (0.01 : ℝ) 50) := by
  unfold rate_func
  apply ContinuousOn.sub _ continuousOn_const
  apply ContinuousOn.div
  · fun_prop
  · fun_prop
  · intro x hx
    have hm : 0 < x / 12 / 100 := monthly_rate_pos hx.1
    have hpow : 1 < (1 + x / 12 / 100) ^ N := one_lt_pow₀ (by linarith) (by omega)
    linarith

theorem rate_func_strictMonoOn (P : ℝ) (N : ℕ) (E : ℝ) (hP : 0 < P) (hN : 1 ≤ N) :
    StrictMonoOn (rate_func P N E) (Set.Icc (0.01 : ℝ) 50) := by
  intro r1 h1 r2 h2 h12
  have hm1 : 0 < r1 / 12 / 100 := monthly_rate_pos h1.1
  have hm2 : 0 < r2 / 12 / 100 := monthly_rate_pos h2.1
  have hrepr : ∀ r : ℝ, 0 < r / 12 / 100 → rate_func P N E r =
      P * (1 + r / 12 / 100) ^ N /
        (∑ k ∈ Finset.range N, (1 + r / 12 / 100) ^ k) - E := by
    intro r hr
    unfold rate_func
    rw [formula_eq_div_geomSum P hr hN]
  rw [hrepr r1 hm1, hrepr r2 hm2]
  have hlt := div_geomSum_strictMono hP hN hm1.le
    (show r1 / 12 / 100 < r2 / 12 / 100 by linarith)
  linarith

theorem calculate_emi_real_rate_ne_zero (P R : ℝ) (N : ℕ) (h : R / 12 / 100 ≠ 0) :
    calculate_emi_real P R N =
      P * (R / 12 / 100) * (1 + R / 12 / 100) ^ N / ((1 + R / 12 / 100) ^ N - 1) := by
  simp only [calculate_emi_real]
  rw [if_neg h]

/-! ### Claim theorems -/

/-- C1: Round-trip of payment and principal: for every P > 0, R ≥ 0 and
integer N > 0, `calculate_principal (calculate_emi P R N) R N` recovers P
within 1e-6 relative tolerance.  In the exact embedding the recovery is exact,
so the tolerance bound holds a fortiori. -/
theorem C1_payment_principal_round_trip (P R : ℚ) (N : ℕ)
    (hP : 0 < P) (hR : 0 ≤ R) (hN : 1 ≤ N) :
    |calculate_principal (calculate_emi P R N) R N - P| ≤ P / 1000000 := by
  have hNne : (N : ℚ) ≠ 0 := Nat.cast_ne_zero.mpr (by omega)
  have heq : calculate_principal (calculate_emi P R N) R N = P := by
    simp only [calculate_emi, calculate_principal]
    by_cases h : R / 12 / 100 = 0
    · rw [if_pos h, if_pos h]
      exact div_mul_cancel₀ P hNne
    · have hr0 : 0 ≤ R / 12 / 100 := by positivity
      have hr : 0 < R / 12 / 100 := lt_of_le_of_ne hr0 (Ne.symm h)
      have hx : (0 : ℚ) < 1 + R / 12 / 100 := by linarith
      have hxN : 1 < (1 + R / 12 / 100) ^ N := one_lt_pow₀ (by linarith) (by omega)
      have hden : (1 + R / 12 / 100) ^ N - 1 ≠ 0 := by linarith
      have hpowne : (1 + R / 12 / 100) ^ N ≠ 0 := (pow_pos hx N).ne'
      rw [if_neg h, if_neg h]
      rw [div_mul_cancel₀ _ hden, mul_assoc,
        mul_div_cancel_right₀ P (mul_pos hr (pow_pos hx N)).ne']
  rw [heq, sub_self, abs_zero]
  positivity

theorem C1_witness :
    (0 : ℚ) < 1000 ∧ (0 : ℚ) ≤ 12 ∧ 1 ≤ 12 ∧
      |calculate_principal (calculate_emi 1000 12 12) 12 12 - 1000| ≤ 1000 / 1000000 :=
  ⟨by norm_num, by norm_num, by norm_num,
    C1_payment_principal_round_trip 1000 12 12 (by norm_num) (by norm_num) (by norm_num)⟩

/-- C4: Schedule length: for every P > 0, R ≥ 0, N ≥ 1, `generate_schedule`
yields exactly `int(N)` rows (N is truncated to an integer first, which for
N ≥ 1 is `(⌊N⌋).toNat`), with period indices running 1, 2, ..., int(N) in
order. -/
theorem C4_schedule_length_and_months (P R N : ℚ) (hP : 0 < P) (hR : 0 ≤ R)
    (hN : 1 ≤ N) :
    (generate_schedule P R N).length = (⌊N⌋).toNat ∧
      (generate_schedule P R N).map ScheduleRow.month = List.range' 1 (⌊N⌋).toNat := by
  constructor
  · simp only [generate_schedule]
    exact scheduleAux_length _ _ _ _ _
  · simp only [generate_schedule]
    exact scheduleAux_map_month _ _ _ _ _

theorem C4_witness :
    (0 : ℚ) < 1000 ∧ (0 : ℚ) ≤ 12 ∧ (1 : ℚ) ≤ 5 ∧
      (generate_schedule 1000 12 5).length = (⌊(5 : ℚ)⌋).toNat ∧
      (generate_schedule 1000 12 5).map ScheduleRow.month =
        List.range' 1 (⌊(5 : ℚ)⌋).toNat :=
  ⟨by norm_num, by norm_num, by norm_num,
    C4_schedule_length_and_months 1000 12 5 (by norm_num) (by norm_num) (by norm_num)⟩

/-- C5: Schedule conservation: for every P > 0, R ≥ 0, integer N ≥ 1, every
row of the schedule has its principal component plus its interest component
equal to its payment within 0.01 currency units. -/
theorem C5_row_conservation (P R : ℚ) (N : ℕ) (hP : 0 < P) (hR : 0 ≤ R)
    (hN : 1 ≤ N) :
    ∀ row ∈ generate_schedule P R (N : ℚ),
      |row.principal + row.interest - row.emi| ≤ 1 / 100 := by
  intro row hrow
  simp only [generate_schedule] at hrow
  obtain ⟨t, he, hi, hp⟩ := scheduleAux_row_form _ _ _ _ _ row hrow
  rw [he, hi, hp]
  have h := abs_round2_add (calculate_emi P R ((⌊(N : ℚ)⌋).toNat) - t) t
  rw [sub_add_cancel] at h
  exact h

theorem C5_witness :
    (0 : ℚ) < 1000 ∧ (0 : ℚ) ≤ 12 ∧ 1 ≤ 5 ∧
      ∀ row ∈ generate_schedule 1000 12 ((5 : ℕ) : ℚ),
        |row.principal + row.interest - row.emi| ≤ 1 / 100 :=
  ⟨by norm_num, by norm_num, by norm_num,
    C5_row_conservation 1000 12 5 (by norm_num) (by norm_num) (by norm_num)⟩

/-- C6: Balance invariant: for every P > 0, R ≥ 0, integer N ≥ 1, the emitted
remainingBalance values are monotonically non-increasing and all ≥ 0 (the loop
clamps the carried balance with `max(balance, 0)`). -/
theorem C6_balance_invariant (P R : ℚ) (N : ℕ) (hP : 0 < P) (hR : 0 ≤ R)
    (hN : 1 ≤ N) :
    List.Chain' (fun x z => z ≤ x)
        ((generate_schedule P R (N : ℚ)).map ScheduleRow.balance) ∧
      ∀ row ∈ generate_schedule P R (N : ℚ), 0 ≤ row.balance := by
  have hr : 0 ≤ R / 12 / 100 := by positivity
  have hn1 : 1 ≤ (⌊((N : ℕ) : ℚ)⌋).toNat := by
    rw [Int.floor_natCast, Int.toNat_natCast]
    exact hN
  have hbound := emi_ge_interest P R ((⌊((N : ℕ) : ℚ)⌋).toNat) hP hR hn1
  obtain ⟨hchain, hpos⟩ :=
    scheduleAux_balance_chain (R / 12 / 100)
      (calculate_emi P R ((⌊((N : ℕ) : ℚ)⌋).toNat)) hr
      ((⌊((N : ℕ) : ℚ)⌋).toNat) 1 P hP.le hbound
  constructor
  · simp only [generate_schedule]
    exact chain_to_chain2 hchain
  · simp only [generate_schedule]
    exact hpos

theorem C6_witness :
    (0 : ℚ) < 1000 ∧ (0 : ℚ) ≤ 12 ∧ 1 ≤ 5 ∧
      (List.Chain' (fun x z => z ≤ x)
          ((generate_schedule 1000 12 ((5 : ℕ) : ℚ)).map ScheduleRow.balance) ∧
        ∀ row ∈ generate_schedule 1000 12 ((5 : ℕ) : ℚ), 0 ≤ row.balance) :=
  ⟨by norm_num, by norm_num, by norm_num,
    C6_balance_invariant 1000 12 5 (by norm_num) (by norm_num) (by norm_num)⟩

/-- C7: Terminal balance: for every P > 0, R ≥ 0, integer N ≥ 1, the last row
of the schedule has a remainingBalance within 0.01 currency units of zero.  In
the exact embedding the final carried balance is exactly 0, so the emitted
(rounded) balance is exactly 0. -/
theorem C7_terminal_balance (P R : ℚ) (N : ℕ) (hP : 0 < P) (hR : 0 ≤ R)
    (hN : 1 ≤ N) :
    ∃ row : ScheduleRow, (generate_schedule P R (N : ℚ)).getLast? = some row ∧
      |row.balance| ≤ 1 / 100 := by
  obtain ⟨m, rfl⟩ : ∃ m, N = m + 1 := ⟨N - 1, by omega⟩
  have hn : (⌊(((m + 1 : ℕ)) : ℚ)⌋).toNat = m + 1 := by
    rw [Int.floor_natCast, Int.toNat_natCast]
  obtain ⟨row, hlast, hbal⟩ :=
    scheduleAux_getLast (R / 12 / 100) (calculate_emi P R (m + 1)) m 1 P
  refine ⟨row, ?_, ?_⟩
  · simp only [generate_schedule, hn]
    exact hlast
  · rw [hbal, stepBal_iterate_zero P R (m + 1) hP hR (by omega), round2_zero,
      abs_zero]
    norm_num

theorem C7_witness :
    (0 : ℚ) < 1000 ∧ (0 : ℚ) ≤ 12 ∧ 1 ≤ 5 ∧
      ∃ row : ScheduleRow,
        (generate_schedule 1000 12 ((5 : ℕ) : ℚ)).getLast? = some row ∧
          |row.balance| ≤ 1 / 100 :=
  ⟨by norm_num, by norm_num, by norm_num,
    C7_terminal_balance 1000 12 5 (by norm_num) (by norm_num) (by norm_num)⟩

/-- C8: Monotonicity in rate: for every fixed P > 0 and integer N > 0,
`calculate_emi P R N` is strictly increasing in R over R ≥ 0; equivalently,
for R > 0 the payment strictly exceeds the interest-free payment P / N. -/
theorem C8_emi_strict_mono_in_rate (P : ℚ) (N : ℕ) (hP : 0 < P) (hN : 1 ≤ N) :
    (∀ R1 R2 : ℚ, 0 ≤ R1 → R1 < R2 →
        calculate_emi P R1 N < calculate_emi P R2 N) ∧
      ∀ R : ℚ, 0 < R → P / N < calculate_emi P R N := by
  have hmono : ∀ R1 R2 : ℚ, 0 ≤ R1 → R1 < R2 →
      calculate_emi P R1 N < calculate_emi P R2 N := by
    intro R1 R2 h1 h12
    rw [calculate_emi_eq_div_geomSum P R1 N h1 hN,
      calculate_emi_eq_div_geomSum P R2 N (by linarith) hN]
    exact div_geomSum_strictMono hP hN (by positivity) (by linarith)
  refine ⟨hmono, fun R hR => ?_⟩
  have h := hmono 0 R le_rfl hR
  rwa [calculate_emi_zero_rate_eq] at h

theorem C8_witness :
    (0 : ℚ) < 1000 ∧ 1 ≤ 12 ∧
      ((∀ R1 R2 : ℚ, 0 ≤ R1 → R1 < R2 →
          calculate_emi 1000 R1 12 < calculate_emi 1000 R2 12) ∧
        ∀ R : ℚ, 0 < R → 1000 / 12 < calculate_emi 1000 R 12) :=
  ⟨by norm_num, by norm_num,
    C8_emi_strict_mono_in_rate 1000 12 (by norm_num) (by norm_num)⟩

/-- C9: Zero-rate special case: for every P > 0 and N > 0,
`calculate_emi P 0 N` equals `P / N` exactly (the zero-rate branch returns the
plain division, with no compounding applied). -/
theorem C9_zero_rate_emi (P : ℚ) (N : ℕ) (hP : 0 < P) (hN : 1 ≤ N) :
    calculate_emi P 0 N = P / N :=
  calculate_emi_zero_rate_eq P N

theorem C9_witness :
    (0 : ℚ) < 5 ∧ 1 ≤ 2 ∧ calculate_emi 5 0 2 = 5 / 2 :=
  ⟨by norm_num, by norm_num, C9_zero_rate_emi 5 2 (by norm_num) (by norm_num)⟩

/-- C3 counterexample: the claim asserts an InvalidInputError whenever
E ≤ P·r (for P > 0, r > 0), quantifying over all E.  At P = 1000, R = 12,
E = −5 we have E ≤ P·r = 10, yet the code's logarithm argument
(−5)/(−15) = 1/3 is positive, so `calculate_tenure` succeeds and returns
log(1/3)/log(1.01) instead of raising. -/
theorem C3_counterexample :
    (0 : ℝ) < 1000 ∧ (0 : ℝ) < 12 / 12 / 100 ∧
      (-5 : ℝ) ≤ 1000 * ((12 : ℝ) / 12 / 100) ∧
      calculate_tenure 1000 12 (-5) =
        Except.ok (Real.log ((-5) / ((-5) - 1000 * ((12 : ℝ) / 12 / 100))) /
          Real.log (1 + (12 : ℝ) / 12 / 100)) := by
  refine ⟨by norm_num, by norm_num, by norm_num, ?_⟩
  simp only [calculate_tenure]
  rw [if_neg (by norm_num : ¬((12 : ℝ) / 12 / 100 = 0))]
  rw [if_neg ?hcond]
  case hcond =>
    push_neg
    refine ⟨by norm_num, by norm_num, by norm_num, ?_⟩
    exact (Real.log_pos (by norm_num)).ne'

/-- C3 (amended): for every P > 0, periodic rate r = R/12/100 > 0, and
non-negative payment E, `calculate_tenure P R E` fails with the
InvalidInputError message whenever E ≤ P·r, and for E > P·r it returns
ln(E/(E − P·r)) / ln(1+r).  (The restriction to E ≥ 0 is forced by the
counterexample above; the claim's particular instance at (1000, 12, 5) is the
witness below.) -/
theorem C3_tenure_solver_cases (P R E : ℝ) (hP : 0 < P)
    (hr : 0 < R / 12 / 100) (hE : 0 ≤ E) :
    (E ≤ P * (R / 12 / 100) →
        calculate_tenure P R E =
          Except.error
            (PyError.valueError "Unable to calculate tenure. Check your values.")) ∧
      (P * (R / 12 / 100) < E →
        calculate_tenure P R E =
          Except.ok (Real.log (E / (E - P * (R / 12 / 100))) /
            Real.log (1 + R / 12 / 100))) := by
  have hPr : 0 < P * (R / 12 / 100) := mul_pos hP hr
  constructor
  · intro hle
    simp only [calculate_tenure]
    rw [if_neg hr.ne']
    rcases eq_or_lt_of_le hle with heq | hlt
    · rw [if_pos (Or.inl (by rw [heq]; ring))]
    · have hquot : E / (E - P * (R / 12 / 100)) ≤ 0 :=
        div_nonpos_of_nonneg_of_nonpos hE (by linarith)
      rw [if_pos (Or.inr (Or.inl hquot))]
  · intro hgt
    have hEpos : 0 < E := lt_trans hPr hgt
    have hsub : 0 < E - P * (R / 12 / 100) := by linarith
    simp only [calculate_tenure]
    rw [if_neg hr.ne']
    rw [if_neg ?hcond]
    case hcond =>
      push_neg
      refine ⟨hsub.ne', div_pos hEpos hsub, by linarith, ?_⟩
      exact (Real.log_pos (by linarith)).ne'

theorem C3_witness :
    (0 : ℝ) < 1000 ∧ (0 : ℝ) < 12 / 12 / 100 ∧ (0 : ℝ) ≤ 5 ∧
      calculate_tenure 1000 12 5 =
        Except.error
          (PyError.valueError "Unable to calculate tenure. Check your values.") :=
  ⟨by norm_num, by norm_num, by norm_num,
    (C3_tenure_solver_cases 1000 12 5 (by norm_num) (by norm_num)
      (by norm_num)).1 (by norm_num)⟩

/-- C10: the zero-rate branch of `calculate_tenure` returns P / E with no
guard on E, so for R = 0 and E = 0 the call fails with a raw
ZeroDivisionError, which is outside the `try` block and therefore not wrapped
into the ValueError used for the positive-rate degenerate cases. -/
theorem C10_zero_rate_zero_payment_division (P : ℝ) :
    calculate_tenure P 0 0 = Except.error PyError.zeroDivisionError ∧
      ∀ msg : String, PyError.zeroDivisionError ≠ PyError.valueError msg := by
  constructor
  · simp [calculate_tenure]
  · intro msg hcontra
    exact PyError.noConfusion hcontra

/-- C2: Rate solver raises-iff: for every P > 0, N > 0, E, `calculate_rate`
fails with the "payment too low" InvalidInputError whenever E < P/N; fails
with the "rate could not be determined" InvalidInputError when E ≥ P/N but
f(r) = solvePayment(P, r, N) − E has no sign change on the bracketing domain
[0.01, 50] annual percent (endpoint product positive); and otherwise returns a
rate R in that domain with solvePayment(P, R, N) = E — exactly, in the ideal
root-finder model, hence in particular to 4 decimal places of percent. -/
theorem C2_rate_solver_cases (P : ℝ) (N : ℕ) (E : ℝ) (hP : 0 < P) (hN : 1 ≤ N) :
    (E < P / N →
        calculate_rate P N E =
          Except.error (PyError.valueError "EMI is too low to cover the loan.")) ∧
      (P / N ≤ E → 0 < rate_func P N E 0.01 * rate_func P N E 50 →
        calculate_rate P N E =
          Except.error
            (PyError.valueError "Could not determine interest rate with given values.")) ∧
      (P / N ≤ E → rate_func P N E 0.01 * rate_func P N E 50 ≤ 0 →
        ∃ R : ℝ, calculate_rate P N E = Except.ok R ∧
          0.01 ≤ R ∧ R ≤ 50 ∧ calculate_emi_real P R N = E) := by
  refine ⟨?_, ?_, ?_⟩
  · intro hlt
    simp only [calculate_rate]
    rw [if_pos hlt]
  · intro hge hprod
    have hnoroot : ¬∃ x, (0.01 : ℝ) ≤ x ∧ x ≤ 50 ∧ rate_func P N E x = 0 := by
      rintro ⟨x, hx1, hx2, hx0⟩
      have hmono := rate_func_strictMonoOn P N E hP hN
      rcases mul_pos_iff.mp hprod with ⟨ha, hb⟩ | ⟨ha, hb⟩
      · rcases eq_or_lt_of_le hx1 with heq | hlt2
        · rw [← heq] at hx0
          linarith
        · have hlt3 := hmono (Set.mem_Icc.mpr ⟨le_refl 0.01, by norm_num⟩)
            (Set.mem_Icc.mpr ⟨hx1, hx2⟩) hlt2
          linarith
      · rcases eq_or_lt_of_le hx2 with heq | hlt2
        · rw [heq] at hx0
          linarith
        · have hlt3 := hmono (Set.mem_Icc.mpr ⟨hx1, hx2⟩)
            (Set.mem_Icc.mpr ⟨by norm_num, le_refl 50⟩) hlt2
          linarith
    simp only [calculate_rate, brentq]
    rw [if_neg (not_lt.mpr hge), dif_neg hnoroot]
  · intro hge hprod
    have hroot : ∃ x, (0.01 : ℝ) ≤ x ∧ x ≤ 50 ∧ rate_func P N E x = 0 := by
      have hcont := rate_func_continuousOn P N E hN
      rcases mul_nonpos_iff.mp hprod with ⟨ha, hb⟩ | ⟨ha, hb⟩
      · have h0 : (0 : ℝ) ∈ Set.Icc (rate_func P N E 50) (rate_func P N E 0.01) :=
          Set.mem_Icc.mpr ⟨hb, ha⟩
        obtain ⟨x, hx, hfx⟩ :=
          intermediate_value_Icc' (by norm_num : (0.01 : ℝ) ≤ 50) hcont h0
        exact ⟨x, hx.1, hx.2, hfx⟩
      · have h0 : (0 : ℝ) ∈ Set.Icc (rate_func P N E 0.01) (rate_func P N E 50) :=
          Set.mem_Icc.mpr ⟨ha, hb⟩
        obtain ⟨x, hx, hfx⟩ :=
          intermediate_value_Icc (by norm_num : (0.01 : ℝ) ≤ 50) hcont h0
        exact ⟨x, hx.1, hx.2, hfx⟩
    simp only [calculate_rate, brentq]
    rw [if_neg (not_lt.mpr hge), dif_pos hroot]
    obtain ⟨hc1, hc2, hc3⟩ := Classical.choose_spec hroot
    refine ⟨Classical.choose hroot, rfl, hc1, hc2, ?_⟩
    have hm : 0 < Classical.choose hroot / 12 / 100 := monthly_rate_pos hc1
    rw [calculate_emi_real_rate_ne_zero P (Classical.choose hroot) N hm.ne']
    unfold rate_func at hc3
    linarith

theorem C2_witness :
    (0 : ℝ) < 1 ∧ 1 ≤ 1 ∧
      calculate_rate 1 1 0 =
        Except.error (PyError.valueError "EMI is too low to cover the loan.") :=
  ⟨by norm_num, by norm_num,
    (C2_rate_solver_cases 1 1 0 (by norm_num) (by norm_num)).1 (by norm_num)⟩
